import Mathlib

/-!
# Verification of ResumeKit's text-analysis services

Shallow embedding of `app/services/keyword_coverage.py` and
`app/services/humanizer.py`.  Python strings are modelled as `List Char`
(Unicode code points, as in Python); Python's `str`/`re` primitives are
translated as executable Lean functions.  Randomness (`random.choice`,
`random.random() < p`) is modelled nondeterministically: engines that draw
random values are given as enumerations of every output reachable under
some sequence of draws.

Case conversion and the `\w`/`\s`/`\b` regex classes are modelled for the
ASCII and basic Cyrillic ranges, which cover the lexicons and inputs of
both services; Python's full Unicode tables are out of scope.
-/

set_option maxRecDepth 100000

namespace ResumeKit

/-! ## Python character primitives -/

/-- ASCII uppercase letter (code points 65–90); comparisons are on code
points, as in Python. -/
def isUpperAZ (c : Char) : Bool := 65 ≤ c.toNat && c.toNat ≤ 90

/-- ASCII lowercase letter (code points 97–122). -/
def isLowerAZ (c : Char) : Bool := 97 ≤ c.toNat && c.toNat ≤ 122

/-- ASCII digit (code points 48–57). -/
def isDigitChar (c : Char) : Bool := 48 ≤ c.toNat && c.toNat ≤ 57

/-- Cyrillic uppercase letter А..Я (U+0410..U+042F). -/
def isCyrUpper (c : Char) : Bool := 1040 ≤ c.toNat && c.toNat ≤ 1071

/-- Cyrillic lowercase letter а..я (U+0430..U+044F). -/
def isCyrLower (c : Char) : Bool := 1072 ≤ c.toNat && c.toNat ≤ 1103

/-- A cased uppercase character (Python `str.isupper` on one char). -/
def isCasedUpper (c : Char) : Bool := isUpperAZ c || isCyrUpper c || c = 'Ё'

/-- A cased lowercase character. -/
def isCasedLower (c : Char) : Bool := isLowerAZ c || isCyrLower c || c = 'ё'

/-- A cased character. -/
def isCasedChar (c : Char) : Bool := isCasedUpper c || isCasedLower c

/-- The regex class `\w` (word character): ASCII alphanumerics, `_`,
and Cyrillic letters. -/
def isWordChar (c : Char) : Bool :=
  isUpperAZ c || isLowerAZ c || isDigitChar c || c = '_' || isCasedChar c

/-- The regex class `\s` / Python whitespace: space, `\t`, `\n`, `\v`, `\f`, `\r`. -/
def isSpaceChar (c : Char) : Bool :=
  c.toNat = 32 || c.toNat = 9 || c.toNat = 10 || c.toNat = 11 ||
  c.toNat = 12 || c.toNat = 13

/-- Python `str.lower` on one character (ASCII + Cyrillic incl. Ё). -/
def pyLowerChar (c : Char) : Char :=
  if isUpperAZ c || isCyrUpper c then Char.ofNat (c.toNat + 32)
  else if c = 'Ё' then 'ё' else c

/-- Python `str.upper` on one character (ASCII + Cyrillic incl. ё). -/
def pyUpperChar (c : Char) : Char :=
  if isLowerAZ c || isCyrLower c then Char.ofNat (c.toNat - 32)
  else if c = 'ё' then 'Ё' else c

/-! ## Python string primitives over `List Char` -/

/-- Python `str.lower`. -/
def pyLower (s : List Char) : List Char := s.map pyLowerChar

/-- Python `str.upper`. -/
def pyUpper (s : List Char) : List Char := s.map pyUpperChar

/-- Python `str.capitalize`: first character uppercased, the rest lowercased. -/
def pyCapitalize : List Char → List Char
  | [] => []
  | c :: cs => pyUpperChar c :: pyLower cs

/-- Python `str.isupper`: at least one cased character and no lowercase
cased character. -/
def pyIsUpper (s : List Char) : Bool :=
  s.any isCasedChar && s.all (fun c => !isCasedLower c)

/-- Python `str.strip()` (strip whitespace from both ends). -/
def pyStrip (s : List Char) : List Char :=
  (s.dropWhile isSpaceChar).reverse.dropWhile isSpaceChar |>.reverse

/-- Count of a character in a string (Python `str.count` for 1-char needles). -/
def countChar (c : Char) (s : List Char) : Nat := s.count c

/-- `pat.isPrefixOf s` as an executable Bool. -/
def isPrefixList : List Char → List Char → Bool
  | [], _ => true
  | _ :: _, [] => false
  | p :: ps, c :: cs => p = c && isPrefixList ps cs

/-- Python `pat in s` (substring containment). -/
def hasSubstr (pat : List Char) : List Char → Bool
  | [] => pat.isEmpty
  | c :: cs => isPrefixList pat (c :: cs) || hasSubstr pat cs

/-- One step of Python `str.split(sep)`: `splitSkip sep k cs` scans `cs`
with `k` characters of a just-matched separator still to be consumed.
Separator occurrences are found leftmost, non-overlapping. -/
def splitSkip (sep : List Char) : Nat → List Char → List (List Char)
  | 0, [] => [[]]
  | 0, c :: cs =>
    if isPrefixList sep (c :: cs) then
      [] :: splitSkip sep (sep.length - 1) cs
    else
      match splitSkip sep 0 cs with
      | [] => [[c]]
      | p :: ps => (c :: p) :: ps
  | _ + 1, [] => [[]]
  | k + 1, _ :: cs => splitSkip sep k cs

/-- Python `str.split(sep)` for a non-empty separator.  (Python raises
`ValueError` on an empty separator; the sources never pass one, and we
return `[s]` in that unreachable case.) -/
def splitSep (sep s : List Char) : List (List Char) :=
  if sep.isEmpty then [s] else splitSkip sep 0 s

/-- Python `sep.join(parts)`. -/
def joinSep (sep : List Char) : List (List Char) → List Char
  | [] => []
  | [p] => p
  | p :: ps => p ++ sep ++ joinSep sep ps

/-- One step of Python `str.replace(old, new)` (all occurrences, leftmost,
non-overlapping); `k` counts characters of a just-matched `old` still to
be consumed. -/
def replaceSkip (old new : List Char) : Nat → List Char → List Char
  | 0, [] => []
  | 0, c :: cs =>
    if isPrefixList old (c :: cs) then
      new ++ replaceSkip old new (old.length - 1) cs
    else
      c :: replaceSkip old new 0 cs
  | _ + 1, [] => []
  | k + 1, _ :: cs => replaceSkip old new k cs

/-- Python `s.replace(old, new)` for non-empty `old` (the sources only
replace non-empty literals). -/
def pyReplace (s old new : List Char) : List Char :=
  if old.isEmpty then s else replaceSkip old new 0 s

/-- Python `str.split()` (no argument): split on whitespace runs, dropping
empty pieces. -/
def splitWs : List Char → List (List Char)
  | [] => []
  | c :: cs =>
    if isSpaceChar c then splitWs cs
    else
      match splitWs cs with
      | [] => [[c]]
      | p :: ps =>
        match cs with
        | [] => [[c]]
        | d :: _ => if isSpaceChar d then [c] :: p :: ps else (c :: p) :: ps

/-! Sanity checks of the primitives against Python behaviour. -/

example : pyLower "AbЯё!".toList = "abяё!".toList := by decide
example : pyCapitalize "wORK with".toList = "Work with".toList := by decide
example : pyIsUpper "ИСПОЛЬЗОВАТЬ".toList = true := by decide
example : pyIsUpper "Использовать".toList = false := by decide
example : pyIsUpper "9AB".toList = true := by decide
example : splitSep "aa".toList "aaa".toList = ["".toList, "a".toList] := by decide
example : splitSep "!".toList "Hi!! Wow!".toList =
    ["Hi".toList, "".toList, " Wow".toList, "".toList] := by decide
example : joinSep "\n\n".toList ["a".toList, "b".toList] = "a\n\nb".toList := by decide
example : pyReplace "banana".toList "ana".toList "X".toList = "bXna".toList := by decide
example : splitWs "  a bc \n d ".toList = ["a".toList, "bc".toList, "d".toList] := by decide
example : pyStrip " \n ab \t".toList = "ab".toList := by decide
example : hasSubstr "ab".toList "xaab".toList = true := by decide
example : hasSubstr "ab".toList "xba".toList = false := by decide

/-! ## A word-boundary literal matcher (`re.finditer(r'\b' + lit + r'\b', text, re.IGNORECASE)`)

All literals used by the sources start and end with word characters, so the
`\b` assertions reduce to: the preceding character (if any) is not a word
character, and the character following the match (if any) is not a word
character.  Matches are found leftmost, non-overlapping.  Each match is
reported as `(start, end, matched slice in original case)`. -/

/-- Case-insensitive literal prefix test: pattern and text characters are
compared after `pyLowerChar`. -/
def lowerPrefixOf : List Char → List Char → Bool
  | [], _ => true
  | _ :: _, [] => false
  | p :: ps, c :: cs => pyLowerChar p = pyLowerChar c && lowerPrefixOf ps cs

/-- No word character follows (end-of-string or a non-word character). -/
def boundaryAfter : List Char → Bool
  | [] => true
  | d :: _ => !isWordChar d

/-- Scanner for the word-boundary matcher.  `k` is the number of characters
of a just-reported match still to be skipped, `prev` the previously
consumed character, `pos` the absolute position. -/
def findIterSkip (w : List Char) : Nat → Option Char → Nat → List Char →
    List (Nat × Nat × List Char)
  | 0, _, _, [] => []
  | 0, prev, pos, c :: cs =>
    if (match prev with | none => true | some p => !isWordChar p) &&
        lowerPrefixOf w (c :: cs) && boundaryAfter ((c :: cs).drop w.length) then
      (pos, pos + w.length, (c :: cs).take w.length) ::
        findIterSkip w (w.length - 1) (some c) (pos + 1) cs
    else
      findIterSkip w 0 (some c) (pos + 1) cs
  | _ + 1, _, _, [] => []
  | k + 1, _, pos, c :: cs => findIterSkip w k (some c) (pos + 1) cs

/-- All whole-word case-insensitive matches of the literal `w` in `t`. -/
def findIterWord (w t : List Char) : List (Nat × Nat × List Char) :=
  findIterSkip w 0 none 0 t

example : findIterWord "leverage".toList "Leverage this; leverages; xleverage; LEVERAGE!".toList
    = [(0, 8, "Leverage".toList), (37, 45, "LEVERAGE".toList)] := by decide
example : findIterWord "touch base".toList "We touch Base now".toList
    = [(3, 13, "touch Base".toList)] := by decide
example : findIterWord "aa".toList "aaa".toList = [] := by decide

/-- Splice replacements into a string.  The list carries
`((start, end), replacement)` with absolute positions, in ascending order
and pairwise disjoint; `pos` is the absolute position of the head of the
remaining text.  This realises the source's reversed in-place splicing
(replacing from the last match to the first keeps earlier offsets valid,
which is the same function as one simultaneous splice). -/
def spliceAll : Nat → List Char → List ((Nat × Nat) × List Char) → List Char
  | _, cs, [] => cs
  | pos, cs, ((s, e), r) :: rest =>
    cs.take (s - pos) ++ r ++ spliceAll e (cs.drop (e - pos)) rest

example : spliceAll 0 "abcdef".toList [((1, 3), "X".toList), ((4, 5), "YZ".toList)]
    = "aXdYZf".toList := by decide

/-! ## Nondeterministic choice enumeration -/

/-- All vectors of length `n` over elements of `xs` — the possible results
of `n` independent draws of `random.choice(xs)` (resp. coin flips). -/
def allVecs (xs : List α) : Nat → List (List α)
  | 0 => [[]]
  | n + 1 => xs.flatMap fun x => (allVecs xs n).map (x :: ·)

example : allVecs [0, 1] 2 = [[0, 0], [0, 1], [1, 0], [1, 1]] := by decide

/-! ## `_replace_stigma_phrases` (humanizer.py, English) -/

/-- Adapt the case of a chosen replacement to the matched span
(humanizer.py lines 101–107): whole match uppercase → uppercase the
replacement; else first character uppercase → capitalize it; else keep it.
A match is never empty, so the `' '` default of `headD` is unreachable. -/
def adaptEn (m r : List Char) : List Char :=
  if pyIsUpper m then pyUpper r
  else if isCasedUpper (m.headD ' ') then pyCapitalize r
  else r

/-- Helper to write a lexicon entry. -/
def kv (s : String) (l : List String) : List Char × List (List Char) :=
  (s.toList, l.map String.toList)

/-- `AI_STIGMA_PHRASES` of humanizer.py, in definition order. -/
def AI_STIGMA_PHRASES : List (List Char × List (List Char)) :=
  [ kv "leverage" ["use", "apply", "employ", "work with"],
    kv "utilize" ["use", "employ", "apply"],
    kv "robust" ["strong", "reliable", "solid", "effective"],
    kv "cutting-edge" ["modern", "latest", "current", "advanced"],
    kv "state-of-the-art" ["modern", "advanced", "latest"],
    kv "seamlessly" ["smoothly", "effectively", "efficiently"],
    kv "synergy" ["cooperation", "collaboration", "teamwork"],
    kv "paradigm" ["approach", "model", "framework"],
    kv "proactive" ["forward-thinking", "active", "initiative-driven"],
    kv "game-changer" ["breakthrough", "innovation", "advancement"],
    kv "touch base" ["contact", "reach out", "connect"],
    kv "circle back" ["return to", "follow up on", "revisit"],
    kv "deep dive" ["detailed analysis", "thorough review", "close look"] ]

/-- Every output of one English stigma pass: each whole-word occurrence of
`stigma` is replaced (unconditionally) by some case-adapted alternative. -/
def stigmaPassOutputs (stigma : List Char) (alts : List (List Char))
    (t : List Char) : List (List Char) :=
  let ms := findIterWord stigma t
  (allVecs alts ms.length).map fun ch =>
    spliceAll 0 t ((ms.zip ch).map fun p => ((p.1.1, p.1.2.1), adaptEn p.1.2.2 p.2))

/-- Every output of `_replace_stigma_phrases`: the passes run in lexicon
definition order, each on the current (already modified) text. -/
def replaceStigmaOutputs (t : List Char) : List (List Char) :=
  AI_STIGMA_PHRASES.foldl (fun ts p => ts.flatMap (stigmaPassOutputs p.1 p.2)) [t]

/-! ## `_add_natural_variations` (humanizer.py) -/

/-- The apostrophe character (U+0027). -/
def apos : Char := Char.ofNat 39

/-- The `contractions` dictionary of `_add_natural_variations`, in
definition order.  Values contain an apostrophe. -/
def CONTRACTIONS : List (List Char × List Char) :=
  [ ("I am".toList, ['I', apos, 'm']),
    ("I have".toList, ['I', apos, 'v', 'e']),
    ("I would".toList, ['I', apos, 'd']),
    ("cannot".toList, ['c', 'a', 'n', apos, 't']),
    ("do not".toList, ['d', 'o', 'n', apos, 't']),
    ("will not".toList, ['w', 'o', 'n', apos, 't']) ]

/-- Every output of one contraction pass: each whole-word occurrence of
`formal` is replaced by `casual` with probability 0.3, independently
(modelled as a coin per match). -/
def contractionPassOutputs (formal casual : List Char) (t : List Char) :
    List (List Char) :=
  let ms := findIterWord formal t
  (allVecs [false, true] ms.length).map fun coins =>
    spliceAll 0 t ((ms.zip coins).filterMap fun p =>
      if p.2 then some ((p.1.1, p.1.2.1), casual) else none)

/-- Every output of `_add_natural_variations`. -/
def addVariationsOutputs (t : List Char) : List (List Char) :=
  CONTRACTIONS.foldl (fun ts p => ts.flatMap (contractionPassOutputs p.1 p.2)) [t]

/-! ## `_vary_sentence_structure` and `_reduce_enthusiasm` (humanizer.py) -/

/-- `_vary_sentence_structure` collects sentence-starter statistics into
local variables and returns `text` unchanged ("This is just detection"). -/
def varySentenceStructure (t : List Char) : List Char := t

/-- Rebuild the tail pieces of a paragraph that had more than one `!`:
each piece with non-whitespace content is re-attached behind a `.`,
whitespace-only pieces are dropped. -/
def rebuildTail : List (List Char) → List Char
  | [] => []
  | p :: ps => (if (pyStrip p).isEmpty then [] else '.' :: p) ++ rebuildTail ps

/-- Per-paragraph `!`-limiting of `_reduce_enthusiasm`: a paragraph with
more than one `!` keeps only the first and turns the later ones into
periods. -/
def fixPara (para : List Char) : List Char :=
  if 1 < countChar '!' para then
    (splitSep ['!'] para).headD [] ++ ['!'] ++ rebuildTail (splitSep ['!'] para).tail
  else para

/-- Flush a collected all-uppercase run for the `\b([A-Z]{3,})\b` pass:
capitalize it when it has length ≥ 3 and ends at a word boundary. -/
def acrFlush (run : List Char) (boundaryOk : Bool) : List Char :=
  if 3 ≤ run.length && boundaryOk then pyCapitalize run else run

/-- Scanner for `re.sub(r'\b([A-Z]{3,})\b', capitalize, text)`.
`prevW` records whether the previous character was a word character
(so a run may only start after a non-word character or at the origin);
`run` is the uppercase run collected so far. -/
def acrGo : Bool → List Char → List Char → List Char
  | _, run, [] => acrFlush run true
  | prevW, run, c :: cs =>
    if isUpperAZ c then
      if run.isEmpty then
        if prevW then c :: acrGo true [] cs
        else acrGo false [c] cs
      else acrGo prevW (run ++ [c]) cs
    else
      if run.isEmpty then c :: acrGo (isWordChar c) [] cs
      else acrFlush run (!isWordChar c) ++ c :: acrGo (isWordChar c) [] cs

/-- The capitalization-reduction pass of `_reduce_enthusiasm`. -/
def acronymSub (t : List Char) : List Char := acrGo false [] t

example : acronymSub "I love ABC and ABCd and xDEF and AB-CDE!".toList
    = "I love Abc and ABCd and xDEF and AB-Cde!".toList := by decide

/-- `_reduce_enthusiasm`: limit each blank-line paragraph to one `!`,
then soften 3+-letter all-caps runs. -/
def reduceEnthusiasm (t : List Char) : List Char :=
  acronymSub (joinSep ['\n', '\n'] ((splitSep ['\n', '\n'] t).map fixPara))

example : reduceEnthusiasm "Hi!! Wow!".toList = "Hi!. Wow".toList := by decide
example : reduceEnthusiasm "Great! Nice!\n\nYES INDEED!".toList
    = "Great!. Nice\n\nYes Indeed!".toList := by decide

/-! ## `_humanize_russian` (humanizer.py) -/

/-- Case adaptation of the Russian stigma pass (humanizer.py lines
229–231): only the first character of the match is inspected; there is no
whole-match-uppercase branch. -/
def adaptRu (m r : List Char) : List Char :=
  if isCasedUpper (m.headD ' ') then pyCapitalize r else r

/-- The `russian_stigmas` dictionary, in definition order. -/
def RUSSIAN_STIGMAS : List (List Char × List (List Char)) :=
  [ kv "использовать" ["применять", "работать с", "применить"],
    kv "эффективный" ["результативный", "продуктивный", "успешный", "действенный"],
    kv "инновационный" ["современный", "передовой", "новый", "актуальный"],
    kv "оптимизировать" ["улучшить", "доработать", "усовершенствовать", "настроить"],
    kv "осуществлять" ["выполнять", "проводить", "делать"],
    kv "реализовать" ["выполнить", "сделать", "создать"],
    kv "уникальный" ["особенный", "отличительный", "своеобразный"],
    kv "квалифицированный" ["опытный", "компетентный", "знающий"],
    kv "высококачественный" ["качественный", "надежный", "хороший"],
    kv "многофункциональный" ["универсальный", "гибкий"] ]

/-- Every output of one Russian stigma pass: each whole-word occurrence is
independently either left alone (the 50% coin fails) or replaced by some
case-adapted alternative. -/
def ruStigmaPassOutputs (stigma : List Char) (alts : List (List Char))
    (t : List Char) : List (List Char) :=
  let ms := findIterWord stigma t
  (allVecs (none :: alts.map some) ms.length).map fun acts =>
    spliceAll 0 t ((ms.zip acts).filterMap fun p =>
      p.2.map fun r => ((p.1.1, p.1.2.1), adaptRu p.1.2.2 r))

/-- The five fixed formality substitutions of `_humanize_russian`, applied
in source order as plain substring replacements. -/
def ruFormalitySubs (t : List Char) : List Char :=
  pyReplace (pyReplace (pyReplace (pyReplace (pyReplace t
    "Глубокоуважаемый".toList "Уважаемый".toList)
    "С глубоким уважением".toList "С уважением".toList)
    "выражаю заинтересованность".toList "меня заинтересовала".toList)
    "хотел бы выразить".toList "хочу выразить".toList)
    "имею глубокие знания".toList "имею хорошие знания".toList

/-- One line of the `я`-reduction loop: both branches of the source append
`line` unchanged (the coin is drawn, the line kept either way). -/
def yaLine (coin : Bool) (line : List Char) : List Char :=
  if isPrefixList "я ".toList (pyLower (pyStrip line)) && coin then line
  else line

/-- Every output of the `я`-reduction loop.  The source draws one coin per
line whose stripped, lowered text starts with `"я "`; we enumerate a coin
for every line, which yields the same set of outputs. -/
def yaPassOutputs (t : List Char) : List (List Char) :=
  let lines := splitSep ['\n'] t
  (allVecs [false, true] lines.length).map fun coins =>
    joinSep ['\n'] (List.zipWith yaLine coins lines)

/-- Number of `random.random()` calls performed by `_humanize_russian`
when `apply_variations` is false: one per line (of the text after the five
formality substitutions) whose stripped, lowered text starts with `"я "`.
(The stigma block, the only other draw site, is skipped on this path.) -/
def ruYaDrawsNoVariations (t : List Char) : Nat :=
  (splitSep ['\n'] (ruFormalitySubs t)).countP
    fun line => isPrefixList "я ".toList (pyLower (pyStrip line))

/-- Every output of `_humanize_russian`. -/
def humanizeRussianOutputs (t : List Char) (applyVariations : Bool) :
    List (List Char) :=
  let o1 := if applyVariations then
      RUSSIAN_STIGMAS.foldl (fun ts p => ts.flatMap (ruStigmaPassOutputs p.1 p.2)) [t]
    else [t]
  (o1.map ruFormalitySubs).flatMap yaPassOutputs

/-! ## `humanize_text` (humanizer.py) -/

/-- Every output of `humanize_text`: empty text is returned as-is; Russian
goes through `_humanize_russian`; otherwise the stigma and contraction
passes run when `apply_variations` is set, followed by the deterministic
`_vary_sentence_structure` and `_reduce_enthusiasm`. -/
def humanizeOutputs (t language : List Char) (applyVariations : Bool) :
    List (List Char) :=
  if t.isEmpty then [t]
  else if language = "ru".toList then humanizeRussianOutputs t applyVariations
  else
    let o1 := if applyVariations then replaceStigmaOutputs t else [t]
    let o2 := if applyVariations then o1.flatMap addVariationsOutputs else o1
    o2.map fun u => reduceEnthusiasm (varySentenceStructure u)

/-! ## `check_ai_score` (humanizer.py) -/

/-- The result dictionary of `check_ai_score`. -/
structure AIScoreResult where
  score : Nat
  flags : List (List Char)
  suggestions : List (List Char)
  is_likely_ai : Bool
  deriving Repr, DecidableEq

/-- The `buzzwords` list of `check_ai_score`. -/
def BUZZWORDS : List (List Char) :=
  ["leverage", "utilize", "robust", "cutting-edge", "state-of-the-art",
   "seamlessly", "synergy", "paradigm", "proactive", "game-changer"].map
    String.toList

/-- `.` `!` `?` — the sentence-splitting class `[.!?]+`. -/
def isSentSep (c : Char) : Bool := c = '.' || c = '!' || c = '?'

/-- `re.split(r'[.!?]+', text)`: split on maximal runs of sentence
terminators.  `inSep` records whether the scanner is inside such a run. -/
def sentSplitGo : Bool → List Char → List (List Char)
  | _, [] => [[]]
  | inSep, c :: cs =>
    if isSentSep c then
      if inSep then sentSplitGo true cs
      else [] :: sentSplitGo true cs
    else
      match sentSplitGo false cs with
      | [] => [[c]]
      | p :: ps => (c :: p) :: ps

/-- Sentence split of `check_ai_score`. -/
def sentSplit (t : List Char) : List (List Char) := sentSplitGo false t

example : sentSplit "Hi there. Bye!? Ok".toList
    = ["Hi there".toList, " Bye".toList, " Ok".toList] := by decide
example : sentSplit ".a.".toList = ["".toList, "a".toList, "".toList] := by decide

/-- `check_ai_score`.  The two density comparisons of the source are on
floats (`buzzword_count / word_count > 0.05` and
`unique_starters / len(starters) < 0.6`); they are modelled exactly by
cross-multiplication, which agrees with the float computation on all
non-astronomical inputs. -/
def check_ai_score (text language : List Char) : AIScoreResult :=
  if language = "en".toList then
    let word_count := (splitWs text).length
    let buzzword_count := (BUZZWORDS.map fun w => (findIterWord w text).length).sum
    let densityHit := 0 < word_count && word_count < 20 * buzzword_count
    let starters := (sentSplit text).filterMap fun s =>
      if (pyStrip s).isEmpty then none else some ((pyStrip s).take 10)
    let repHit := 3 < starters.length &&
      5 * starters.dedup.length < 3 * starters.length
    let exHit := 2 < countChar '!' text
    let formalHit := hasSubstr "Dear Sir or Madam".toList text
    let score := (if densityHit then 30 else 0) + (if repHit then 20 else 0) +
      (if exHit then 15 else 0) + (if formalHit then 10 else 0)
    { score := min score 100
      flags :=
        (if densityHit then ["High buzzword density".toList] else []) ++
        (if repHit then ["Repetitive sentence structure".toList] else []) ++
        (if exHit then ["Excessive enthusiasm markers".toList] else []) ++
        (if formalHit then ["Overly formal opening".toList] else [])
      suggestions :=
        (if densityHit then ["Replace buzzwords with natural language".toList] else []) ++
        (if repHit then ["Vary sentence beginnings".toList] else []) ++
        (if exHit then ["Reduce exclamation marks".toList] else []) ++
        (if formalHit then ["Use more natural greeting".toList] else [])
      is_likely_ai := 50 < score }
  else { score := 0, flags := [], suggestions := [], is_likely_ai := false }

example : (check_ai_score "Hello there".toList "en".toList).score = 0 := by decide
example : (check_ai_score "Wow! Wow! Wow! So great".toList "en".toList).score = 35 := by
  decide
example : (check_ai_score "Чудесно!!! Вот".toList "ru".toList).score = 0 := by decide

/-! ## `extract_keywords` (keyword_coverage.py)

Three regex scanners over the original-case text.  Scanning is leftmost,
non-overlapping; failed attempts advance one position, but a position whose
predecessor is a word character can never satisfy the leading `\b`, so the
scanners may jump to the end of the inspected run. -/

/-- Maximal run of characters satisfying `p`, and the rest. -/
def takeRun (p : Char → Bool) : List Char → List Char × List Char
  | [] => ([], [])
  | c :: cs =>
    if p c then
      ((takeRun p cs).1.cons c, (takeRun p cs).2)
    else ([], c :: cs)

/-- Match `[A-Z][a-z]+` at the head with a word boundary after it:
an uppercase letter, a maximal non-empty lowercase run, and no word
character following (greedy `[a-z]+` cannot backtrack past this). -/
def matchCapWord : List Char → Option (List Char × List Char)
  | [] => none
  | c :: cs =>
    if isUpperAZ c then
      let lows := (takeRun isLowerAZ cs).1
      let rest := (takeRun isLowerAZ cs).2
      if lows.isEmpty then none
      else if boundaryAfter rest then some (c :: lows, rest) else none
    else none

/-- Greedy `(?:\s+[A-Z][a-z]+)*`: keep appending a whitespace run and a
further capitalized word while possible; a failing group is dropped whole
(the boundary after the previous word is then the whitespace). -/
def capExtend (fuel : Nat) (cs : List Char) : List Char × List Char :=
  match fuel with
  | 0 => ([], cs)
  | fuel + 1 =>
    let sp := (takeRun isSpaceChar cs).1
    let rest := (takeRun isSpaceChar cs).2
    if sp.isEmpty then ([], cs)
    else
      match matchCapWord rest with
      | none => ([], cs)
      | some (w, rest2) =>
        let more := capExtend fuel rest2
        (sp ++ w ++ more.1, more.2)

/-- Scanner for `\b[A-Z][a-z]+(?:\s+[A-Z][a-z]+)*\b` (findall, full
matches).  `prevW`: previous character was a word character. -/
def capScan (fuel : Nat) (prevW : Bool) (cs : List Char) : List (List Char) :=
  match fuel, cs with
  | 0, _ => []
  | _, [] => []
  | fuel + 1, c :: rest =>
    if !prevW && isUpperAZ c then
      match matchCapWord (c :: rest) with
      | some (w, rest2) =>
        let more := capExtend fuel rest2
        (w ++ more.1) :: capScan fuel true more.2
      | none => capScan fuel (isWordChar c) rest
    else capScan fuel (isWordChar c) rest

/-- `re.findall(r"\b[A-Z][a-z]+(?:\s+[A-Z][a-z]+)*\b", text)`. -/
def findallCap (t : List Char) : List (List Char) := capScan (t.length + 1) false t

/-- Scanner for `\b[A-Z]{2,}\b`: a maximal uppercase run of length ≥ 2
bounded by word boundaries. -/
def acrScan (fuel : Nat) (prevW : Bool) (cs : List Char) : List (List Char) :=
  match fuel, cs with
  | 0, _ => []
  | _, [] => []
  | fuel + 1, c :: rest =>
    if !prevW && isUpperAZ c then
      let run := (takeRun isUpperAZ (c :: rest)).1
      let rest2 := (takeRun isUpperAZ (c :: rest)).2
      if 2 ≤ run.length && boundaryAfter rest2 then run :: acrScan fuel true rest2
      else acrScan fuel true rest2
    else acrScan fuel (isWordChar c) rest

/-- `re.findall(r"\b[A-Z]{2,}\b", text)`. -/
def findallAcr (t : List Char) : List (List Char) := acrScan (t.length + 1) false t

/-- The extension alternatives of the file-extension pattern, in
alternation order. -/
def EXTS : List (List Char) :=
  ["js", "ts", "py", "java", "go", "rs", "rb"].map String.toList

/-- Ordered alternation `(js|ts|py|java|go|rs|rb)` followed by `\b`:
the first alternative that is a prefix and ends at a word boundary wins. -/
def tryExts : List (List Char) → List Char → Option (List Char × List Char)
  | [], _ => none
  | e :: es, cs =>
    if isPrefixList e cs && boundaryAfter (cs.drop e.length) then
      some (e, cs.drop e.length)
    else tryExts es cs

/-- Scanner for `\b\w+\.(js|ts|py|java|go|rs|rb)\b`.  `re.findall` returns
the *capturing group* — the extension alone — not the whole match, because
the pattern has exactly one group. -/
def extScan (fuel : Nat) (prevW : Bool) (cs : List Char) : List (List Char) :=
  match fuel, cs with
  | 0, _ => []
  | _, [] => []
  | fuel + 1, c :: rest =>
    if !prevW && isWordChar c then
      let rest2 := (takeRun isWordChar (c :: rest)).2
      match rest2 with
      | '.' :: rest3 =>
        match tryExts EXTS rest3 with
        | some (e, rest4) => e :: extScan fuel true rest4
        | none => extScan fuel true rest2
      | _ => extScan fuel true rest2
    else extScan fuel (isWordChar c) rest

/-- `re.findall(r"\b\w+\.(js|ts|py|java|go|rs|rb)\b", text)` — a list of
extension strings (the group), per Python `findall` semantics. -/
def findallExt (t : List Char) : List (List Char) := extScan (t.length + 1) false t

example : findallCap "Hello  World5 and McDonald, Spring\nBoot".toList
    = ["Hello".toList, "Spring\nBoot".toList] := by decide
example : findallAcr "AWS and ABCd or KUBeR AB C ABC".toList
    = ["AWS".toList, "AB".toList, "ABC".toList] := by decide
example : findallExt "use app.py and Foo.java and a.jsx and x.y.go".toList
    = ["py".toList, "java".toList, "go".toList] := by decide

/-- `_TECH_NORMALIZATIONS` of keyword_coverage.py: `(variant, standard)`
pairs in definition order. -/
def TECH_NORMALIZATIONS : List (List Char × List Char) :=
  [ ("python", "Python"), ("java", "Java"), ("javascript", "JavaScript"),
    ("typescript", "TypeScript"), ("react", "React"), ("vue", "Vue"),
    ("angular", "Angular"), ("fastapi", "FastAPI"), ("django", "Django"),
    ("flask", "Flask"), ("spring", "Spring"), ("spring boot", "Spring Boot"),
    ("postgresql", "PostgreSQL"), ("postgres", "PostgreSQL"),
    ("mysql", "MySQL"), ("mongodb", "MongoDB"), ("redis", "Redis"),
    ("docker", "Docker"), ("kubernetes", "Kubernetes"), ("k8s", "Kubernetes"),
    ("aws", "AWS"), ("azure", "Azure"), ("gcp", "GCP"), ("git", "Git"),
    ("github", "GitHub"), ("gitlab", "GitLab"), ("ci/cd", "CI/CD"),
    ("cicd", "CI/CD"), ("rest", "REST"), ("graphql", "GraphQL"),
    ("microservices", "Microservices"), ("api", "API"), ("sql", "SQL"),
    ("nosql", "NoSQL"), ("linux", "Linux"), ("unix", "Unix"),
    ("agile", "Agile"), ("scrum", "Scrum") ].map
      fun p => (p.1.toList, p.2.toList)

/-- `keywords.add(k)`: a Python `set` modelled as a duplicate-free list. -/
def addKw (k : List Char) (ks : List (List Char)) : List (List Char) :=
  if k ∈ ks then ks else ks ++ [k]

/-- `extract_keywords` of keyword_coverage.py.  (The source also computes a
`normalized_text` by iterated replacement, but never uses it afterwards;
that dead local is omitted.)  Lexicon hits are recorded under the standard
name; the three structural patterns contribute their `findall` results of
length > 2 verbatim. -/
def extract_keywords (text : List Char) : List (List Char) :=
  let text_lower := pyLower text
  let k1 := TECH_NORMALIZATIONS.foldl
    (fun ks p =>
      if hasSubstr p.1 text_lower || hasSubstr (pyLower p.2) text_lower then
        addKw p.2 ks
      else ks) []
  (findallCap text ++ findallAcr text ++ findallExt text).foldl
    (fun ks m => if 2 < m.length then addKw m ks else ks) k1

example : extract_keywords "app.py".toList = [] := by decide
example : extract_keywords "Foo.java".toList
    = ["Java".toList, "Foo".toList, "java".toList] := by decide

/-! ## `compute_coverage` (keyword_coverage.py) -/

/-- Python string `<` (lexicographic by code point), strictly. -/
def lexLt : List Char → List Char → Bool
  | _, [] => false
  | [], _ :: _ => true
  | a :: xs, b :: ys => a < b || (a = b && lexLt xs ys)

/-- Python string `<=` (lexicographic by code point). -/
def lexLe : List Char → List Char → Bool
  | [], _ => true
  | _ :: _, [] => false
  | a :: xs, b :: ys => a < b || (a = b && lexLe xs ys)

/-- Python `sorted` on a collection of strings. -/
def sortStrings (l : List (List Char)) : List (List Char) :=
  List.insertionSort (fun a b => lexLe a b = true) l

/-- Round `a / b` (for `b > 0`) to the nearest integer with ties to even —
the rounding used both by IEEE-754 binary64 operations and by CPython's
`round`. -/
def roundHalfEvenDiv (a b : Nat) : Nat :=
  if 2 * (a % b) < b then a / b
  else if b < 2 * (a % b) then a / b + 1
  else if (a / b) % 2 = 0 then a / b else a / b + 1

/-- Binade search: the smallest `j` with `n ≤ k * 2 ^ j`, i.e. the `j`
with `2 ^ (-j) ≤ k / n < 2 ^ (-j+1)` for `0 < k ≤ n`.  The fuel `n + 1`
always suffices since `2 ^ n > n`. -/
def flExpNat (k n : Nat) : Nat → Nat → Nat
  | 0, j => j
  | fuel + 1, j => if n ≤ k * 2 ^ j then j else flExpNat k n fuel (j + 1)

/-- The exact value of Python `round(k / n, 2)`, in hundredths.
`k / n` is first rounded to the nearest binary64 (53-bit significand
`roundHalfEvenDiv (k * 2 ^ sh) n` on the quantum `2 ^ (-sh)`, with the
fixed subnormal quantum `2 ^ (-1074)` below `2 ^ (-1022)`) — CPython's
`int.__truediv__` is correctly rounded; then the double's exact value
`m / 2 ^ sh` is rounded half-to-even to two decimals, which is what
CPython's `round` computes via its correctly rounded dtoa.  The formula
is exact for quotients in `[0, 2)`; coverage scores lie in `[0, 1]`. -/
def pyRound2Cents (k n : Nat) : Nat :=
  if k = 0 ∨ n = 0 then 0
  else
    let j := flExpNat k n (n + 1) 0
    let sh := min (52 + j) 1074
    roundHalfEvenDiv (100 * roundHalfEvenDiv (k * 2 ^ sh) n) (2 ^ sh)

/-- Python `round(k / n if n else 0.0, 2)` as a rational.  The returned
float is the binary64 nearest to `cents / 100`, which is uniquely
determined by `cents`, so the result is identified with `cents / 100`.
The `n = 0` guard is the source's `else 0.0` branch
(`round(0.0, 2) == 0.0`), and `round(0 / n, 2) == 0.0` likewise. -/
def pyRound2Div (k n : Nat) : ℚ := (pyRound2Cents k n : ℚ) / 100

/-! `pyRound2Cents` against CPython's `round(k/n, 2)`, including the
1/40 and 3/40 quotients where the binary64 value rounds against the
exact-rational direction (`0.025 ↦ 0.03`, `0.075 ↦ 0.07`), and the
exactly representable ties (`1/8 ↦ 0.12`, `3/8 ↦ 0.38`). -/

example : pyRound2Cents 1 40 = 3 := by decide
example : pyRound2Cents 3 40 = 7 := by decide
example : pyRound2Cents 1 8 = 12 := by decide
example : pyRound2Cents 3 8 = 38 := by decide
example : pyRound2Cents 1 200 = 1 := by decide
example : pyRound2Cents 1 3 = 33 := by decide
example : pyRound2Cents 2 3 = 67 := by decide
example : pyRound2Cents 1 6 = 17 := by decide
example : pyRound2Cents 7 40 = 17 := by decide
example : pyRound2Cents 13 16 = 81 := by decide
example : pyRound2Cents 39 40 = 97 := by decide
example : pyRound2Cents 1 2 = 50 := by decide
example : pyRound2Cents 0 7 = 0 := by decide
example : pyRound2Cents 5 5 = 100 := by decide
example : pyRound2Cents 1 1000000 = 0 := by decide
example : pyRound2Cents 333 1000 = 33 := by decide

/-- The result dictionary of `compute_coverage`. -/
structure CoverageResult where
  matched : List (List Char)
  missing : List (List Char)
  score : ℚ
  total_jd_keywords : Nat
  total_resume_keywords : Nat
  deriving Repr, DecidableEq

/-- `compute_coverage` of keyword_coverage.py. -/
def compute_coverage (resume_text job_description : List Char) : CoverageResult :=
  let resume_keywords := extract_keywords resume_text
  let jd_keywords := extract_keywords job_description
  let matched := sortStrings (resume_keywords.filter (· ∈ jd_keywords))
  let missing := sortStrings (jd_keywords.filter (· ∉ resume_keywords))
  -- `round(len(matched) / len(jd_keywords) if jd_keywords else 0.0, 2)`:
  -- `pyRound2Div` returns 0 for an empty `jd_keywords` (the `else 0.0`
  -- branch) and models the float division and rounding otherwise.
  { matched := matched
    missing := missing
    score := pyRound2Div matched.length jd_keywords.length
    total_jd_keywords := jd_keywords.length
    total_resume_keywords := resume_keywords.length }

/-! ## Claim theorems -/

/-- No whole-word, case-insensitive occurrence of `w` in `t`. -/
def noWholeWordOcc (w t : List Char) : Bool := (findIterWord w t).isEmpty

/-- **C2.** For every text and language, the result of `check_ai_score`
has `0 ≤ score ≤ 100`, and `is_likely_ai` holds exactly when the returned
score is greater than 50. -/
theorem c2_ai_score_bounds (text language : List Char) :
    0 ≤ (check_ai_score text language).score ∧
    (check_ai_score text language).score ≤ 100 ∧
    ((check_ai_score text language).is_likely_ai = true ↔
      50 < (check_ai_score text language).score) := by
  refine ⟨Nat.zero_le _, ?_, ?_⟩ <;>
  · unfold check_ai_score
    split
    · dsimp only
      split_ifs <;> simp_all
    · simp

/-- **C7.** For every text and every language other than `"en"`,
`check_ai_score` returns score 0, no flags, no suggestions, and
`is_likely_ai = false`. -/
theorem c7_non_english_zero (text language : List Char)
    (h : language ≠ "en".toList) :
    check_ai_score text language =
      { score := 0, flags := [], suggestions := [], is_likely_ai := false } := by
  unfold check_ai_score
  rw [if_neg h]

theorem c7_non_english_zero_witness :
    "ru".toList ≠ "en".toList ∧
    check_ai_score "Dear Sir or Madam!!!".toList "ru".toList =
      { score := 0, flags := [], suggestions := [], is_likely_ai := false } :=
  ⟨by decide, c7_non_english_zero _ _ (by decide)⟩

/-- **C3.** On the English sentence below, every possible run of
`_replace_stigma_phrases` (i.e. every output under every sequence of
random choices) contains no whole-word, case-insensitive occurrence of
"leverage", "utilize" or "robust". -/
theorem c3_stigma_removed :
    ∀ out ∈ replaceStigmaOutputs
      "I will leverage my expertise to utilize robust solutions.".toList,
      noWholeWordOcc "leverage".toList out = true ∧
      noWholeWordOcc "utilize".toList out = true ∧
      noWholeWordOcc "robust".toList out = true := by decide

theorem c3_stigma_removed_witness :
    "I will use my expertise to use strong solutions.".toList ∈
      replaceStigmaOutputs
        "I will leverage my expertise to utilize robust solutions.".toList ∧
    noWholeWordOcc "leverage".toList
      "I will use my expertise to use strong solutions.".toList = true :=
  ⟨by decide, (c3_stigma_removed _ (by decide)).1⟩

/-- **C8.** Humanizing the English sentence below with variations enabled
preserves the substrings "10", "Python" and "Java" in every possible
output. -/
theorem c8_content_preserved :
    ∀ out ∈ humanizeOutputs
      "I have 10 years of experience with Python and Java.".toList
      "en".toList true,
      hasSubstr "10".toList out = true ∧
      hasSubstr "Python".toList out = true ∧
      hasSubstr "Java".toList out = true := by decide

theorem c8_content_preserved_witness :
    "I have 10 years of experience with Python and Java.".toList ∈
      humanizeOutputs
        "I have 10 years of experience with Python and Java.".toList
        "en".toList true ∧
    hasSubstr "10".toList
      "I have 10 years of experience with Python and Java.".toList = true :=
  ⟨by decide, (c8_content_preserved _ (by decide)).1⟩

/-! ## C5: what the file-extension pattern contributes -/

theorem tryExts_mem {exts : List (List Char)} {cs e rest} :
    tryExts exts cs = some (e, rest) → e ∈ exts := by
  induction exts with
  | nil => intro h; simp [tryExts] at h
  | cons x xs ih =>
    intro h
    rw [tryExts] at h
    split at h
    · cases h; exact List.mem_cons_self _ _
    · exact List.mem_cons_of_mem _ (ih h)

theorem extScan_mem_EXTS :
    ∀ (fuel : Nat) (prevW : Bool) (cs m : List Char),
      m ∈ extScan fuel prevW cs → m ∈ EXTS := by
  intro fuel
  induction fuel with
  | zero => intro prevW cs m h; simp [extScan] at h
  | succ n ih =>
    intro prevW cs m h
    match cs with
    | [] => simp [extScan] at h
    | c :: rest =>
      rw [extScan] at h
      dsimp only at h
      split at h
      · split at h
        · split at h
          · rcases List.mem_cons.mp h with h | h
            · subst h
              exact tryExts_mem (by assumption)
            · exact ih _ _ _ h
          · exact ih _ _ _ h
        · exact ih _ _ _ h
      · exact ih _ _ _ h

theorem findallExt_mem_EXTS {t m : List Char} (h : m ∈ findallExt t) : m ∈ EXTS :=
  extScan_mem_EXTS _ _ _ _ h

theorem addKw_mem_self (k : List Char) (ks : List (List Char)) : k ∈ addKw k ks := by
  unfold addKw; split
  · assumption
  · simp

theorem addKw_mem_mono {x : List Char} {ks : List (List Char)} (k : List Char)
    (h : x ∈ ks) : x ∈ addKw k ks := by
  unfold addKw; split
  · exact h
  · exact List.mem_append_left _ h

theorem kwFold_mem_mono {x : List Char} :
    ∀ (ms : List (List Char)) (ks : List (List Char)), x ∈ ks →
      x ∈ ms.foldl (fun ks m => if 2 < m.length then addKw m ks else ks) ks := by
  intro ms
  induction ms with
  | nil => intro ks h; exact h
  | cons m ms ih =>
    intro ks h
    simp only [List.foldl_cons]
    apply ih
    split
    · exact addKw_mem_mono _ h
    · exact h

theorem kwFold_mem_adds {x : List Char} (hx : 2 < x.length) :
    ∀ (ms : List (List Char)) (ks : List (List Char)), x ∈ ms →
      x ∈ ms.foldl (fun ks m => if 2 < m.length then addKw m ks else ks) ks := by
  intro ms
  induction ms with
  | nil => intro ks h; cases h
  | cons m ms ih =>
    intro ks h
    simp only [List.foldl_cons]
    rcases List.mem_cons.mp h with h | h
    · subst h
      apply kwFold_mem_mono
      rw [if_pos hx]
      exact addKw_mem_self _ _
    · exact ih _ h

/-- **C5, counterexample.**  On `"see app.py here"` the file-extension
pattern fires (its `findall` result is the captured group `"py"`), the
text contains the token `app.py` of length 6 > 2, yet `app.py` is *not*
among the extracted keywords — `re.findall` with a capturing group returns
the group, not the whole match, and `"py"` is then dropped by the
length-> 2 filter. -/
theorem c5_counterexample :
    findallExt "see app.py here".toList = ["py".toList] ∧
    hasSubstr "app.py".toList "see app.py here".toList = true ∧
    2 < ("app.py".toList).length ∧
    "app.py".toList ∉ extract_keywords "see app.py here".toList := by decide

/-- **C5, amended.**  For every text, what the file-extension pattern
contributes to `extract_keywords` is its captured group — the bare
extension — and only when that group is longer than 2 characters; hence
`"java"` is the only extension ever added, verbatim (lowercase). -/
theorem EXTS_long_is_java : ∀ m ∈ EXTS, 2 < m.length → m = "java".toList := by
  decide

theorem c5_extension_group (text m : List Char)
    (h1 : m ∈ findallExt text) (h2 : 2 < m.length) :
    m = "java".toList ∧ m ∈ extract_keywords text := by
  refine ⟨EXTS_long_is_java m (findallExt_mem_EXTS h1) h2, ?_⟩
  unfold extract_keywords
  dsimp only
  exact kwFold_mem_adds h2 _ _ (List.mem_append_right _ h1)

theorem c5_extension_group_witness :
    "java".toList ∈ findallExt "Run Foo.java now".toList ∧
    2 < ("java".toList).length ∧
    "java".toList ∈ extract_keywords "Run Foo.java now".toList :=
  ⟨by decide, by decide,
    (c5_extension_group "Run Foo.java now".toList "java".toList
      (by decide) (by decide)).2⟩

/-! ## C6: case adaptation of stigma replacements -/

/-- **C6, counterexample.**  A possible run of the Russian humanizer on
the all-uppercase text `"ИСПОЛЬЗОВАТЬ"` (the 50% coin succeeds and
`"применять"` is drawn) inserts the merely capitalized `"Применять"`,
not the uppercased `"ПРИМЕНЯТЬ"` the claim requires for an all-uppercase
match: `_humanize_russian` checks only the first character. -/
theorem c6_counterexample :
    "Применять".toList ∈
      humanizeOutputs "ИСПОЛЬЗОВАТЬ".toList "ru".toList true ∧
    pyIsUpper "ИСПОЛЬЗОВАТЬ".toList = true ∧
    "применять".toList ∈
      (RUSSIAN_STIGMAS.headD ([], [])).2 ∧
    pyUpper "применять".toList = "ПРИМЕНЯТЬ".toList ∧
    "Применять".toList ≠ "ПРИМЕНЯТЬ".toList := by decide

/-- **C6, amended.**  The English replacement engine adapts case exactly
as claimed (uppercase match → uppercased replacement; else capitalized
first letter → capitalized replacement; else unchanged), but the Russian
engine inspects only the first character of the match: a replacement under
a match with an uppercase first character is capitalized — even when the
whole match is uppercase — and is inserted unchanged otherwise. -/
theorem c6_case_adaptation (m r : List Char) :
    (pyIsUpper m = true → adaptEn m r = pyUpper r) ∧
    (pyIsUpper m = false → isCasedUpper (m.headD ' ') = true →
      adaptEn m r = pyCapitalize r) ∧
    (pyIsUpper m = false → isCasedUpper (m.headD ' ') = false →
      adaptEn m r = r) ∧
    (isCasedUpper (m.headD ' ') = true → adaptRu m r = pyCapitalize r) ∧
    (isCasedUpper (m.headD ' ') = false → adaptRu m r = r) := by
  unfold adaptEn adaptRu
  refine ⟨fun h1 => ?_, fun h1 h2 => ?_, fun h1 h2 => ?_, fun h1 => ?_, fun h1 => ?_⟩
  · rw [if_pos h1]
  · rw [if_neg (by simp [h1]), if_pos h2]
  · rw [if_neg (by simp [h1]), if_neg (by rw [h2]; exact Bool.false_ne_true)]
  · rw [if_pos h1]
  · rw [if_neg (by rw [h1]; exact Bool.false_ne_true)]

theorem c6_case_adaptation_witness :
    adaptEn "ИСПОЛЬЗОВАТЬ".toList "применять".toList = "ПРИМЕНЯТЬ".toList ∧
    adaptRu "ИСПОЛЬЗОВАТЬ".toList "применять".toList = "Применять".toList := by
  constructor
  · exact (c6_case_adaptation "ИСПОЛЬЗОВАТЬ".toList "применять".toList).1 (by decide)
  · rw [(c6_case_adaptation "ИСПОЛЬЗОВАТЬ".toList "применять".toList).2.2.2.1 (by decide)]
    decide

/-! ## C9: the Russian no-variations path -/

theorem allVecs_length {α : Type} (xs : List α) :
    ∀ (n : Nat) (v : List α), v ∈ allVecs xs n → v.length = n := by
  intro n
  induction n with
  | zero => intro v h; simp [allVecs] at h; simp [h]
  | succ n ih =>
    intro v h
    simp only [allVecs, List.mem_flatMap, List.mem_map] at h
    obtain ⟨x, _, w, hw, rfl⟩ := h
    simp [ih w hw]

theorem yaLine_eq (coin : Bool) (line : List Char) : yaLine coin line = line := by
  unfold yaLine; split <;> rfl

theorem zipWith_yaLine :
    ∀ (coins : List Bool) (lines : List (List Char)),
      coins.length = lines.length →
      List.zipWith yaLine coins lines = lines := by
  intro coins
  induction coins with
  | nil =>
    intro lines h
    cases lines with
    | nil => rfl
    | cons l ls => simp at h
  | cons c cs ih =>
    intro lines h
    cases lines with
    | nil => simp at h
    | cons l ls =>
      simp only [List.zipWith_cons_cons, yaLine_eq]
      rw [ih ls (by simpa using h)]

theorem splitSkip_ne_nil (sep : List Char) :
    ∀ (s : List Char) (k : Nat), splitSkip sep k s ≠ [] := by
  intro s
  induction s with
  | nil => intro k; cases k <;> simp [splitSkip]
  | cons c cs ih =>
    intro k
    cases k with
    | zero =>
      rw [splitSkip]
      split
      · simp
      · split <;> simp
    | succ k => rw [splitSkip]; exact ih k

theorem splitSkip_shift (sep : List Char) :
    ∀ (k : Nat) (s : List Char), splitSkip sep k s = splitSkip sep 0 (s.drop k) := by
  intro k
  induction k with
  | zero => intro s; rw [List.drop_zero]
  | succ k ih =>
    intro s
    cases s with
    | nil => cases k <;> simp [splitSkip]
    | cons c cs =>
      rw [splitSkip, ih cs, List.drop_succ_cons]

theorem isPrefixList_eq_append :
    ∀ (p s : List Char), isPrefixList p s = true → s = p ++ s.drop p.length := by
  intro p
  induction p with
  | nil => intro s h; simp
  | cons a ps ih =>
    intro s h
    cases s with
    | nil => simp [isPrefixList] at h
    | cons c cs =>
      simp only [isPrefixList, Bool.and_eq_true, decide_eq_true_eq] at h
      obtain ⟨rfl, h2⟩ := h
      have := ih cs h2
      simpa using this

theorem joinSep_cons_cons (sep : List Char) (c : Char) (p : List Char)
    (ps : List (List Char)) :
    joinSep sep ((c :: p) :: ps) = c :: joinSep sep (p :: ps) := by
  cases ps <;> rfl

theorem joinSep_splitSkip (sep : List Char) (hsep : sep ≠ []) :
    ∀ (n : Nat) (s : List Char), s.length ≤ n →
      joinSep sep (splitSkip sep 0 s) = s := by
  intro n
  induction n with
  | zero =>
    intro s hs
    rw [List.length_eq_zero.mp (Nat.le_zero.mp hs)]
    rfl
  | succ n ih =>
    intro s hs
    cases s with
    | nil => rfl
    | cons c cs =>
      rw [splitSkip]
      split
      · rename_i hpre
        rw [splitSkip_shift]
        obtain ⟨p, ps, hps⟩ : ∃ p ps,
            splitSkip sep 0 (cs.drop (sep.length - 1)) = p :: ps := by
          cases hx : splitSkip sep 0 (cs.drop (sep.length - 1)) with
          | nil => exact absurd hx (splitSkip_ne_nil sep _ _)
          | cons p ps => exact ⟨p, ps, rfl⟩
        rw [hps]
        have hdrop : joinSep sep (p :: ps) = cs.drop (sep.length - 1) := by
          rw [← hps]
          exact ih _ (by
            simp only [List.length_cons] at hs
            simp only [List.length_drop]
            omega)
        have hlen : 1 ≤ sep.length := by
          cases sep with
          | nil => exact absurd rfl hsep
          | cons a as => simp
        have := isPrefixList_eq_append sep (c :: cs) hpre
        calc joinSep sep ([] :: p :: ps)
            = sep ++ joinSep sep (p :: ps) := rfl
          _ = sep ++ cs.drop (sep.length - 1) := by rw [hdrop]
          _ = sep ++ (c :: cs).drop sep.length := by
              congr 1
              cases hsl : sep.length with
              | zero => omega
              | succ m => simp [hsl]
          _ = c :: cs := this.symm
      · rename_i hpre
        obtain ⟨p, ps, hps⟩ : ∃ p ps, splitSkip sep 0 cs = p :: ps := by
          cases hx : splitSkip sep 0 cs with
          | nil => exact absurd hx (splitSkip_ne_nil sep _ _)
          | cons p ps => exact ⟨p, ps, rfl⟩
        rw [hps, joinSep_cons_cons]
        have : joinSep sep (p :: ps) = cs := by
          rw [← hps]
          exact ih cs (by simp only [List.length_cons] at hs; omega)
        rw [this]

theorem joinSep_splitSep (sep : List Char) (hsep : sep ≠ []) (s : List Char) :
    joinSep sep (splitSep sep s) = s := by
  unfold splitSep
  rw [if_neg (by simpa using hsep)]
  exact joinSep_splitSkip sep hsep s.length s le_rfl

theorem yaPassOutputs_eq (s : List Char) :
    ∀ out ∈ yaPassOutputs s, out = s := by
  intro out h
  unfold yaPassOutputs at h
  obtain ⟨coins, hc, rfl⟩ := List.mem_map.mp h
  rw [zipWith_yaLine coins _ (allVecs_length _ _ _ hc)]
  exact joinSep_splitSep ['\n'] (by simp) s

/-- **C9, counterexample.**  `humanize_text(text, "ru", apply_variations=False)`
is *not* free of randomness consumption: the `я`-reduction loop of
`_humanize_russian` calls `random.random()` once for every line starting
with `"я "` (here: once), even though both branches keep the line. -/
theorem c9_counterexample :
    ruYaDrawsNoVariations "я хочу работать".toList = 1 := by decide

/-- **C9, amended.**  For every text and every sequence of coin draws, the
output of `humanize_text(text, "ru", apply_variations=False)` equals the
text with exactly the five fixed formality substitutions applied in source
order as plain substring replacements (`ruFormalitySubs`): the stigma pass
is skipped, and the `я` loop keeps every line, so the random draws it makes
never influence the output. -/
theorem c9_russian_novariations (text : List Char) :
    ∀ out ∈ humanizeOutputs text "ru".toList false, out = ruFormalitySubs text := by
  intro out h
  rw [humanizeOutputs] at h
  split at h
  · rename_i he
    rw [List.mem_singleton] at h
    subst h
    rw [List.isEmpty_iff.mp he]
    rfl
  · rw [if_pos rfl] at h
    unfold humanizeRussianOutputs at h
    simp only [Bool.false_eq_true, if_false, List.map_cons, List.map_nil,
      List.flatMap_cons, List.flatMap_nil, List.append_nil] at h
    exact yaPassOutputs_eq _ out h

theorem c9_russian_novariations_witness :
    "я хочу".toList ∈ humanizeOutputs "я хочу".toList "ru".toList false ∧
    "я хочу".toList = ruFormalitySubs "я хочу".toList :=
  ⟨by decide, c9_russian_novariations "я хочу".toList "я хочу".toList (by decide)⟩

/-! ## C1, C10: coverage characterization -/

theorem lexLe_total : ∀ a b : List Char, lexLe a b = true ∨ lexLe b a = true := by
  intro a
  induction a with
  | nil => intro b; left; rfl
  | cons x xs ih =>
    intro b
    cases b with
    | nil => right; rfl
    | cons y ys =>
      simp only [lexLe, Bool.or_eq_true, Bool.and_eq_true, decide_eq_true_eq]
      rcases lt_trichotomy x y with h | h | h
      · exact Or.inl (Or.inl h)
      · subst h
        rcases ih ys with h | h
        · exact Or.inl (Or.inr ⟨rfl, h⟩)
        · exact Or.inr (Or.inr ⟨rfl, h⟩)
      · exact Or.inr (Or.inl h)

theorem lexLe_trans :
    ∀ a b c : List Char, lexLe a b = true → lexLe b c = true → lexLe a c = true := by
  intro a
  induction a with
  | nil => intro b c _ _; rfl
  | cons x xs ih =>
    intro b c h1 h2
    cases b with
    | nil => simp [lexLe] at h1
    | cons y ys =>
      cases c with
      | nil => simp [lexLe] at h2
      | cons z zs =>
        simp only [lexLe, Bool.or_eq_true, Bool.and_eq_true,
          decide_eq_true_eq] at h1 h2 ⊢
        rcases h1 with h1 | ⟨rfl, h1⟩
        · rcases h2 with h2 | ⟨rfl, h2⟩
          · exact Or.inl (lt_trans h1 h2)
          · exact Or.inl h1
        · rcases h2 with h2 | ⟨rfl, h2⟩
          · exact Or.inl h2
          · exact Or.inr ⟨rfl, ih ys zs h1 h2⟩

theorem lexLt_of_le_of_ne :
    ∀ a b : List Char, lexLe a b = true → a ≠ b → lexLt a b = true := by
  intro a
  induction a with
  | nil =>
    intro b _ hne
    cases b with
    | nil => exact absurd rfl hne
    | cons y ys => rfl
  | cons x xs ih =>
    intro b hle hne
    cases b with
    | nil => simp [lexLe] at hle
    | cons y ys =>
      simp only [lexLe, Bool.or_eq_true, Bool.and_eq_true,
        decide_eq_true_eq] at hle
      simp only [lexLt, Bool.or_eq_true, Bool.and_eq_true, decide_eq_true_eq]
      rcases hle with h | ⟨rfl, h⟩
      · exact Or.inl h
      · refine Or.inr ⟨rfl, ih ys h fun hx => hne ?_⟩
        rw [hx]

/-- `lexLe` is total (needed for sortedness of `insertionSort`). -/
instance : IsTotal (List Char) (fun a b => lexLe a b = true) := ⟨lexLe_total⟩

/-- `lexLe` is transitive. -/
instance : IsTrans (List Char) (fun a b => lexLe a b = true) := ⟨lexLe_trans⟩

theorem addKw_nodup {ks : List (List Char)} (k : List Char) (h : ks.Nodup) :
    (addKw k ks).Nodup := by
  unfold addKw
  split
  · exact h
  · rename_i hk
    rw [List.nodup_append]
    exact ⟨h, List.nodup_singleton k, fun a ha hk' => by
      rw [List.mem_singleton] at hk'
      subst hk'
      exact hk ha⟩

theorem foldl_nodup {β : Type} (f : List (List Char) → β → List (List Char))
    (hf : ∀ ks x, ks.Nodup → (f ks x).Nodup) :
    ∀ (l : List β) (ks : List (List Char)), ks.Nodup → (l.foldl f ks).Nodup := by
  intro l
  induction l with
  | nil => intro ks h; exact h
  | cons x xs ih => intro ks h; exact ih _ (hf ks x h)

theorem extract_keywords_nodup (t : List Char) : (extract_keywords t).Nodup := by
  unfold extract_keywords
  dsimp only
  apply foldl_nodup
  · intro ks m h
    split
    · exact addKw_nodup m h
    · exact h
  · apply foldl_nodup
    · intro ks p h
      split
      · exact addKw_nodup p.2 h
      · exact h
    · exact List.nodup_nil

theorem compute_coverage_matched (r j : List Char) :
    (compute_coverage r j).matched =
      sortStrings ((extract_keywords r).filter (· ∈ extract_keywords j)) := rfl

theorem compute_coverage_missing (r j : List Char) :
    (compute_coverage r j).missing =
      sortStrings ((extract_keywords j).filter (· ∉ extract_keywords r)) := rfl

theorem compute_coverage_score (r j : List Char) :
    (compute_coverage r j).score =
      pyRound2Div (compute_coverage r j).matched.length
        (extract_keywords j).length := rfl

theorem pyRound2Div_zero (k : Nat) : pyRound2Div k 0 = 0 := by
  unfold pyRound2Div pyRound2Cents
  rw [if_pos (Or.inr rfl)]
  norm_num

theorem roundHalfEvenDiv_mul (c b : Nat) (hb : b ≠ 0) :
    roundHalfEvenDiv (b * c) b = c := by
  unfold roundHalfEvenDiv
  rw [Nat.mul_div_cancel_left c (Nat.pos_of_ne_zero hb), Nat.mul_mod_right]
  rw [if_pos (by omega)]

theorem pyRound2Cents_self (n : Nat) (hn : n ≠ 0) : pyRound2Cents n n = 100 := by
  unfold pyRound2Cents
  rw [if_neg (by simp [hn])]
  dsimp only
  rw [flExpNat, if_pos (by simp)]
  rw [show min (52 + 0) 1074 = 52 from rfl]
  rw [roundHalfEvenDiv_mul (2 ^ 52) n hn]
  rw [show (100 : Nat) * 2 ^ 52 = 2 ^ 52 * 100 from Nat.mul_comm _ _]
  rw [roundHalfEvenDiv_mul 100 (2 ^ 52) (Nat.pos_of_ne_zero (by norm_num)).ne']

theorem pyRound2Div_self (n : Nat) (hn : n ≠ 0) : pyRound2Div n n = 1 := by
  unfold pyRound2Div
  rw [pyRound2Cents_self n hn]
  norm_num

theorem sortStrings_mem (l : List (List Char)) (k : List Char) :
    k ∈ sortStrings l ↔ k ∈ l :=
  (List.perm_insertionSort _ l).mem_iff

theorem sortStrings_pairwise_lt {l : List (List Char)} (h : l.Nodup) :
    List.Pairwise (fun a b => lexLt a b = true) (sortStrings l) := by
  have hs : List.Pairwise (fun a b => lexLe a b = true) (sortStrings l) :=
    List.sorted_insertionSort _ l
  have hn : (sortStrings l).Nodup :=
    (List.perm_insertionSort _ l).symm.nodup h
  exact (hs.and hn).imp fun hab => lexLt_of_le_of_ne _ _ hab.1 hab.2

/-- **C1.** For all resume/JD texts, `compute_coverage` never fails (it is
a total function), `matched` is the strictly `lexLt`-sorted enumeration of
`extractKeywords(resume) ∩ extractKeywords(jd)`, `missing` the strictly
sorted enumeration of `extractKeywords(jd) − extractKeywords(resume)`, and
`score` is `round(len(matched)/len(jdKeywords), 2)` for non-empty
`jdKeywords` and exactly `0` otherwise. -/
theorem c1_coverage_correct (r j : List Char) :
    (∀ k, k ∈ (compute_coverage r j).matched ↔
      k ∈ extract_keywords r ∧ k ∈ extract_keywords j) ∧
    List.Pairwise (fun a b => lexLt a b = true) (compute_coverage r j).matched ∧
    (∀ k, k ∈ (compute_coverage r j).missing ↔
      k ∈ extract_keywords j ∧ k ∉ extract_keywords r) ∧
    List.Pairwise (fun a b => lexLt a b = true) (compute_coverage r j).missing ∧
    (compute_coverage r j).score =
      (if extract_keywords j = [] then 0
       else pyRound2Div (compute_coverage r j).matched.length
         (extract_keywords j).length) := by
  refine ⟨?_, ?_, ?_, ?_, ?_⟩
  · intro k
    rw [compute_coverage_matched, sortStrings_mem]
    simp [List.mem_filter]
  · rw [compute_coverage_matched]
    exact sortStrings_pairwise_lt ((extract_keywords_nodup r).filter _)
  · intro k
    rw [compute_coverage_missing, sortStrings_mem]
    simp [List.mem_filter]
  · rw [compute_coverage_missing]
    exact sortStrings_pairwise_lt ((extract_keywords_nodup j).filter _)
  · rw [compute_coverage_score]
    by_cases hj : extract_keywords j = []
    · rw [if_pos hj, hj]
      exact pyRound2Div_zero _
    · rw [if_neg hj]

/-- **C10.** Coverage of a text against itself: nothing is missing,
`matched` is the sorted keyword set of the text, and the score is exactly
1 for a non-empty keyword set and 0 for an empty one. -/
theorem c10_self_coverage (t : List Char) :
    (compute_coverage t t).missing = [] ∧
    (compute_coverage t t).matched = sortStrings (extract_keywords t) ∧
    (compute_coverage t t).score =
      (if extract_keywords t = [] then 0 else 1) := by
  have hfilter : (extract_keywords t).filter (· ∈ extract_keywords t) =
      extract_keywords t :=
    List.filter_eq_self.mpr fun a ha => by simpa using ha
  refine ⟨?_, ?_, ?_⟩
  · rw [compute_coverage_missing]
    have : (extract_keywords t).filter (· ∉ extract_keywords t) = [] :=
      List.filter_eq_nil_iff.mpr fun a ha => by simpa using ha
    rw [this]
    rfl
  · rw [compute_coverage_matched, hfilter]
  · rw [compute_coverage_score, compute_coverage_matched, hfilter]
    by_cases hj : extract_keywords t = []
    · rw [if_pos hj, hj]
      exact pyRound2Div_zero _
    · rw [if_neg hj]
      have hlen : (sortStrings (extract_keywords t)).length =
          (extract_keywords t).length := by
        unfold sortStrings
        exact (List.perm_insertionSort _ _).length_eq
      rw [hlen]
      exact pyRound2Div_self _ fun h => hj (List.length_eq_zero.mp h)

/-! ## C4: every paragraph of `_reduce_enthusiasm`'s output has at most one `!`

The proof: (1) each piece produced by `str.split` contains no occurrence
of the separator and is a contiguous region of the input; (2) each
processed paragraph has at most one `!` and no `"\n\n"`; (3) any
`"\n\n"`-free region of a `"\n\n"`-join of such paragraphs has at most
one `!`; (4) the capitalization pass only changes letter case, preserving
`!` and `\n` positions. -/

theorem isPrefixList_iff_ex (p : List Char) :
    ∀ s, isPrefixList p s = true ↔ ∃ w, s = p ++ w := by
  induction p with
  | nil => intro s; simp [isPrefixList]
  | cons a ps ih =>
    intro s
    cases s with
    | nil => simp [isPrefixList]
    | cons c cs =>
      simp only [isPrefixList, Bool.and_eq_true, decide_eq_true_eq, ih,
        List.cons_append, List.cons.injEq]
      constructor
      · rintro ⟨rfl, w, rfl⟩; exact ⟨w, rfl, rfl⟩
      · rintro ⟨w, rfl, rfl⟩; exact ⟨rfl, w, rfl⟩

theorem hasSubstr_iff_ex (pat : List Char) :
    ∀ s, hasSubstr pat s = true ↔ ∃ u v, s = u ++ pat ++ v := by
  intro s
  induction s with
  | nil =>
    simp only [hasSubstr, List.isEmpty_iff]
    constructor
    · rintro rfl; exact ⟨[], [], rfl⟩
    · rintro ⟨u, v, h⟩
      rcases List.append_eq_nil.mp h.symm with ⟨h1, h2⟩
      exact (List.append_eq_nil.mp h1).2
  | cons c cs ih =>
    simp only [hasSubstr, Bool.or_eq_true, ih, isPrefixList_iff_ex]
    constructor
    · rintro (⟨w, hw⟩ | ⟨u, v, hv⟩)
      · exact ⟨[], w, by simpa using hw⟩
      · exact ⟨c :: u, v, by simp [hv]⟩
    · rintro ⟨u, v, h⟩
      cases u with
      | nil => exact Or.inl ⟨v, by simpa using h⟩
      | cons x u' =>
        simp only [List.cons_append, List.cons.injEq] at h
        exact Or.inr ⟨u', v, h.2⟩

theorem hasSubstr_of_decomp {pat s u v : List Char} (h : s = u ++ pat ++ v) :
    hasSubstr pat s = true :=
  (hasSubstr_iff_ex pat s).mpr ⟨u, v, h⟩

theorem hasSubstr_mono {pat p s u v : List Char} (hs : s = u ++ p ++ v)
    (hp : hasSubstr pat p = true) : hasSubstr pat s = true := by
  obtain ⟨a, b, hab⟩ := (hasSubstr_iff_ex pat p).mp hp
  exact (hasSubstr_iff_ex pat s).mpr ⟨u ++ a, b ++ v, by rw [hs, hab]; simp⟩

theorem hasSubstr_tail {pat : List Char} {c : Char} {cs : List Char}
    (h : hasSubstr pat (c :: cs) = false) : hasSubstr pat cs = false := by
  rw [hasSubstr, Bool.or_eq_false_iff] at h
  exact h.2

theorem countChar_decomp_le (x : Char) {t s u v : List Char}
    (h : s = u ++ t ++ v) : countChar x t ≤ countChar x s := by
  subst h
  simp only [countChar, List.count_append]
  omega

theorem countChar_zero_of_no_single {x : Char} {p : List Char}
    (h : hasSubstr [x] p = false) : countChar x p = 0 := by
  rw [countChar, List.count_eq_zero]
  intro hx
  obtain ⟨s, t, rfl⟩ := List.append_of_mem hx
  rw [(hasSubstr_iff_ex [x] _).mpr ⟨s, t, by simp⟩] at h
  cases h

/-- The pieces of `splitSkip sep 0 s`: the head piece is a prefix of `s`,
and every piece is a contiguous region of `s` that contains no occurrence
of the separator. -/
theorem splitSkip_spec (sep : List Char) (hsep : sep ≠ []) :
    ∀ (n : Nat) (s : List Char), s.length ≤ n →
      (∃ w, s = (splitSkip sep 0 s).headD [] ++ w) ∧
      ∀ p ∈ splitSkip sep 0 s,
        (∃ u v, s = u ++ p ++ v) ∧ hasSubstr sep p = false := by
  have hnil : hasSubstr sep [] = false := by
    cases sep with
    | nil => exact absurd rfl hsep
    | cons a as => rfl
  intro n
  induction n with
  | zero =>
    intro s hs
    rw [List.length_eq_zero.mp (Nat.le_zero.mp hs)]
    exact ⟨⟨[], rfl⟩, by
      intro p hp
      rw [show splitSkip sep 0 [] = [[]] from rfl, List.mem_singleton] at hp
      subst hp
      exact ⟨⟨[], [], rfl⟩, hnil⟩⟩
  | succ n ih =>
    intro s hs
    cases s with
    | nil =>
      exact ⟨⟨[], rfl⟩, by
        intro p hp
        rw [show splitSkip sep 0 [] = [[]] from rfl, List.mem_singleton] at hp
        subst hp
        exact ⟨⟨[], [], rfl⟩, hnil⟩⟩
    | cons c cs =>
      rw [splitSkip]
      split
      · rename_i hpre
        rw [splitSkip_shift]
        have hsplit := isPrefixList_eq_append sep (c :: cs) hpre
        have hdl : (c :: cs).drop sep.length = cs.drop (sep.length - 1) := by
          cases hsl : sep.length with
          | zero =>
            exfalso
            exact hsep (List.length_eq_zero.mp hsl)
          | succ m => simp [hsl]
        have hrec := ih (cs.drop (sep.length - 1)) (by
          simp only [List.length_cons] at hs
          simp only [List.length_drop]
          omega)
        refine ⟨⟨c :: cs, by simp⟩, ?_⟩
        intro p hp
        rcases List.mem_cons.mp hp with rfl | hp
        · exact ⟨⟨[], c :: cs, rfl⟩, hnil⟩
        · obtain ⟨⟨u, v, hd⟩, hfree⟩ := hrec.2 p hp
          refine ⟨⟨sep ++ u, v, ?_⟩, hfree⟩
          rw [hsplit, hdl, hd]
          simp
      · rename_i hpre
        obtain ⟨p0, ps, hps⟩ : ∃ p0 ps, splitSkip sep 0 cs = p0 :: ps := by
          cases hx : splitSkip sep 0 cs with
          | nil => exact absurd hx (splitSkip_ne_nil sep _ _)
          | cons p0 ps => exact ⟨p0, ps, rfl⟩
        rw [hps]
        have hrec := ih cs (by simp only [List.length_cons] at hs; omega)
        obtain ⟨⟨w, hw⟩, hall⟩ := hrec
        rw [hps] at hw hall
        simp only [List.headD_cons] at hw
        refine ⟨⟨w, by rw [hw]; rfl⟩, ?_⟩
        intro p hp
        rcases List.mem_cons.mp hp with rfl | hp
        · refine ⟨⟨[], w, by rw [hw]; rfl⟩, ?_⟩
          rw [hasSubstr, Bool.or_eq_false_iff]
          constructor
          · by_contra hx
            rw [Bool.not_eq_false] at hx
            obtain ⟨z, hz⟩ := (isPrefixList_iff_ex sep _).mp hx
            have : isPrefixList sep (c :: cs) = true := by
              rw [isPrefixList_iff_ex]
              refine ⟨z ++ w, ?_⟩
              rw [hw, show c :: (p0 ++ w) = (c :: p0) ++ w from rfl, hz]
              simp
            exact hpre this
          · exact (hall p0 (List.mem_cons_self _ _)).2
        · obtain ⟨⟨u, v, hd⟩, hfree⟩ := hall p (List.mem_cons_of_mem _ hp)
          exact ⟨⟨c :: u, v, by rw [hd]; rfl⟩, hfree⟩

/-- Pieces of `splitSep`, for a non-empty separator. -/
theorem splitSep_spec (sep : List Char) (hsep : sep ≠ []) (s : List Char) :
    ∀ p ∈ splitSep sep s, (∃ u v, s = u ++ p ++ v) ∧ hasSubstr sep p = false := by
  unfold splitSep
  rw [if_neg (by simpa using hsep)]
  exact (splitSkip_spec sep hsep s.length s le_rfl).2

/-- A `"\n\n"`-free string stays `"\n\n"`-free when extended across a
junction character that is not a newline. -/
theorem noNN_append_mid (c : Char) (hc : c ≠ '\n') :
    ∀ (a b : List Char), hasSubstr ['\n', '\n'] a = false →
      hasSubstr ['\n', '\n'] b = false →
      hasSubstr ['\n', '\n'] (a ++ c :: b) = false := by
  intro a
  induction a with
  | nil =>
    intro b _ hb
    rw [List.nil_append, hasSubstr, Bool.or_eq_false_iff]
    refine ⟨?_, hb⟩
    rw [isPrefixList,
      decide_eq_false (show ¬('\n' = c) from fun h => hc h.symm), Bool.false_and]
  | cons d a' ih =>
    intro b ha hb
    rw [List.cons_append, hasSubstr, Bool.or_eq_false_iff]
    refine ⟨?_, ih b (hasSubstr_tail ha) hb⟩
    by_cases hd : d = '\n'
    · subst hd
      cases a' with
      | nil =>
        rw [List.nil_append, isPrefixList, isPrefixList,
          decide_eq_false (show ¬('\n' = c) from fun h => hc h.symm)]
        simp
      | cons e a'' =>
        by_cases he : e = '\n'
        · subst he
          exfalso
          have hcontra : hasSubstr ['\n', '\n'] ('\n' :: '\n' :: a'') = true :=
            (hasSubstr_iff_ex _ _).mpr ⟨[], a'', by simp⟩
          rw [hcontra] at ha
          cases ha
        · rw [List.cons_append, isPrefixList, isPrefixList,
            decide_eq_false (show ¬('\n' = e) from fun h => he h.symm)]
          simp
    · rw [isPrefixList,
        decide_eq_false (show ¬('\n' = d) from fun h => hd h.symm), Bool.false_and]

theorem rebuildTail_count_zero :
    ∀ (ps : List (List Char)), (∀ p ∈ ps, countChar '!' p = 0) →
      countChar '!' (rebuildTail ps) = 0 := by
  intro ps
  induction ps with
  | nil => intro _; rfl
  | cons p ps ih =>
    intro h
    rw [rebuildTail]
    simp only [countChar, List.count_append]
    have h1 : List.count '!' p = 0 := h p (List.mem_cons_self _ _)
    have h2 : List.count '!' (rebuildTail ps) = 0 :=
      ih fun q hq => h q (List.mem_cons_of_mem _ hq)
    split
    · simpa using h2
    · simp [List.count_cons, h1, h2]

/-- `rebuildTail` yields a `"\n\n"`-free string that is empty or starts
with a period, provided every piece is `"\n\n"`-free. -/
theorem rebuildTail_noNN :
    ∀ (ps : List (List Char)), (∀ p ∈ ps, hasSubstr ['\n', '\n'] p = false) →
      hasSubstr ['\n', '\n'] (rebuildTail ps) = false ∧
      (rebuildTail ps = [] ∨ (rebuildTail ps).head? = some '.') := by
  intro ps
  induction ps with
  | nil => exact fun _ => ⟨rfl, Or.inl rfl⟩
  | cons p ps ih =>
    intro h
    obtain ⟨hR, hshape⟩ := ih fun q hq => h q (List.mem_cons_of_mem _ hq)
    have hp := h p (List.mem_cons_self _ _)
    rw [rebuildTail]
    split
    · simpa using ⟨hR, hshape⟩
    · have hmid : hasSubstr ['\n', '\n'] (p ++ rebuildTail ps) = false := by
        rcases hshape with he | hh
        · rw [he, List.append_nil]; exact hp
        · cases hRps : rebuildTail ps with
          | nil => rw [List.append_nil]; exact hp
          | cons r rs =>
            rw [hRps] at hh hR
            simp only [List.head?_cons, Option.some.injEq] at hh
            subst hh
            exact noNN_append_mid '.' (by decide) p rs hp (hasSubstr_tail hR)
      constructor
      · rw [show ('.' :: p) ++ rebuildTail ps = [] ++ '.' :: (p ++ rebuildTail ps) by simp]
        exact noNN_append_mid '.' (by decide) [] (p ++ rebuildTail ps) rfl hmid
      · right
        simp

theorem splitSep_ne_nil (sep s : List Char) : splitSep sep s ≠ [] := by
  unfold splitSep
  split
  · simp
  · exact splitSkip_ne_nil sep s 0

/-- Each processed paragraph has at most one `!`. -/
theorem fixPara_count (para : List Char) : countChar '!' (fixPara para) ≤ 1 := by
  unfold fixPara
  split
  · have hspec := splitSep_spec ['!'] (by simp) para
    obtain ⟨p0, ps, hps⟩ : ∃ p0 ps, splitSep ['!'] para = p0 :: ps := by
      cases hx : splitSep ['!'] para with
      | nil => exact absurd hx (splitSep_ne_nil _ _)
      | cons p0 ps => exact ⟨p0, ps, rfl⟩
    rw [hps]
    simp only [List.headD_cons, List.tail_cons]
    have h0 : countChar '!' p0 = 0 :=
      countChar_zero_of_no_single (hspec p0 (by rw [hps]; exact List.mem_cons_self _ _)).2
    have hR : countChar '!' (rebuildTail ps) = 0 :=
      rebuildTail_count_zero ps fun q hq =>
        countChar_zero_of_no_single
          (hspec q (by rw [hps]; exact List.mem_cons_of_mem _ hq)).2
    simp only [countChar, List.count_append] at h0 hR ⊢
    simp [h0, hR, List.count_cons]
  · rename_i h
    omega

/-- Each processed paragraph contains no `"\n\n"`, provided the original
paragraph contains none. -/
theorem fixPara_noNN {para : List Char}
    (h : hasSubstr ['\n', '\n'] para = false) :
    hasSubstr ['\n', '\n'] (fixPara para) = false := by
  unfold fixPara
  split
  · have hspec := splitSep_spec ['!'] (by simp) para
    obtain ⟨p0, ps, hps⟩ : ∃ p0 ps, splitSep ['!'] para = p0 :: ps := by
      cases hx : splitSep ['!'] para with
      | nil => exact absurd hx (splitSep_ne_nil _ _)
      | cons p0 ps => exact ⟨p0, ps, rfl⟩
    rw [hps]
    simp only [List.headD_cons, List.tail_cons]
    have hpiece : ∀ q ∈ p0 :: ps, hasSubstr ['\n', '\n'] q = false := by
      intro q hq
      obtain ⟨⟨u, v, hd⟩, _⟩ := hspec q (by rw [hps]; exact hq)
      by_contra hx
      rw [Bool.not_eq_false] at hx
      rw [hasSubstr_mono hd hx] at h
      cases h
    have h0 := hpiece p0 (List.mem_cons_self _ _)
    have hR := (rebuildTail_noNN ps fun q hq => hpiece q (List.mem_cons_of_mem _ hq)).1
    rw [show p0 ++ ['!'] ++ rebuildTail ps = p0 ++ '!' :: rebuildTail ps by simp]
    exact noNN_append_mid '!' (by decide) p0 (rebuildTail ps) h0 hR
  · exact h

theorem append_eq_append_split (a b : List Char) :
    ∀ (c d : List Char), a ++ b = c ++ d →
      (∃ w, a = c ++ w ∧ d = w ++ b) ∨ (∃ w, c = a ++ w ∧ b = w ++ d) := by
  induction a with
  | nil =>
    intro c d h
    exact Or.inr ⟨c, rfl, h⟩
  | cons x a' ih =>
    intro c d h
    cases c with
    | nil =>
      exact Or.inl ⟨x :: a', rfl, by simpa using h.symm⟩
    | cons y c' =>
      rw [List.cons_append, List.cons_append] at h
      injection h with h1 h2
      subst h1
      rcases ih c' d h2 with ⟨w, hw1, hw2⟩ | ⟨w, hw1, hw2⟩
      · exact Or.inl ⟨w, by rw [hw1]; rfl, hw2⟩
      · exact Or.inr ⟨w, by rw [hw1]; rfl, hw2⟩

/-- An occurrence of `t` inside `x ++ y` lies in `x`, lies in `y`, or
straddles the junction with a non-trivial split of `t`. -/
theorem infix_append_tri (x y t u v : List Char) (h : x ++ y = u ++ t ++ v) :
    (∃ u' v', x = u' ++ t ++ v') ∨ (∃ u' v', y = u' ++ t ++ v') ∨
    (∃ t1 t2 u' v', t = t1 ++ t2 ∧ t1 ≠ [] ∧ t2 ≠ [] ∧
      x = u' ++ t1 ∧ y = t2 ++ v') := by
  rcases append_eq_append_split x y (u ++ t) v h with ⟨w, hw1, hw2⟩ | ⟨w, hw1, hw2⟩
  · exact Or.inl ⟨u, w, by simp [hw1]⟩
  · rcases append_eq_append_split u t x w hw1 with ⟨z, hz1, hz2⟩ | ⟨z, hz1, hz2⟩
    · exact Or.inr (Or.inl ⟨z, v, by simp [hw2, hz2]⟩)
    · cases z with
      | nil => exact Or.inr (Or.inl ⟨[], v, by simp [hw2, hz2]⟩)
      | cons zz zs =>
        cases w with
        | nil => exact Or.inl ⟨u, [], by simp [hz1, hz2]⟩
        | cons ww ws =>
          exact Or.inr (Or.inr ⟨zz :: zs, ww :: ws, u, v, hz2, by simp, by simp,
            hz1, hw2⟩)

/-- Any `"\n\n"`-free region of a `"\n\n"`-join of paragraphs that each
contain at most one `!` itself contains at most one `!`. -/
theorem joinNN_region_count :
    ∀ (ps : List (List Char)), (∀ p ∈ ps, countChar '!' p ≤ 1) →
      ∀ (t u v : List Char), joinSep ['\n', '\n'] ps = u ++ t ++ v →
        hasSubstr ['\n', '\n'] t = false → countChar '!' t ≤ 1 := by
  intro ps
  induction ps with
  | nil =>
    intro _ t u v heq _
    have h1 := List.append_eq_nil.mp heq.symm
    have h2 := List.append_eq_nil.mp h1.1
    rw [h2.2]
    simp [countChar]
  | cons p ps ih =>
    intro hcount t u v heq hfree
    cases ps with
    | nil =>
      rw [show joinSep ['\n', '\n'] [p] = p from rfl] at heq
      exact le_trans (countChar_decomp_le '!' heq)
        (hcount p (List.mem_cons_self _ _))
    | cons q qs =>
      rw [show joinSep ['\n', '\n'] (p :: q :: qs) =
        p ++ ['\n', '\n'] ++ joinSep ['\n', '\n'] (q :: qs) from rfl] at heq
      have heq' : p ++ (['\n', '\n'] ++ joinSep ['\n', '\n'] (q :: qs)) =
          u ++ t ++ v := by rw [← List.append_assoc]; exact heq
      have hcount' : ∀ r ∈ q :: qs, countChar '!' r ≤ 1 := fun r hr =>
        hcount r (List.mem_cons_of_mem _ hr)
      rcases infix_append_tri p _ t u v heq' with
        ⟨u', v', hx⟩ | ⟨u', v', hy⟩ |
        ⟨t1, t2, u', v', ht, ht1, ht2, hx, hy⟩
      · exact le_trans (countChar_decomp_le '!' hx)
          (hcount p (List.mem_cons_self _ _))
      · rcases infix_append_tri ['\n', '\n'] _ t u' v' hy with
          ⟨u'', v'', hx2⟩ | ⟨u'', v'', hy2⟩ |
          ⟨t1, t2, u'', v'', ht, ht1, ht2, hx2, hy2⟩
        · have hle := countChar_decomp_le '!' hx2
          have h0 : countChar '!' ['\n', '\n'] = 0 := by decide
          rw [h0] at hle
          omega
        · exact ih hcount' t u'' v'' hy2 hfree
        · have hc1 : countChar '!' t1 = 0 := by
            have hle : countChar '!' t1 ≤ countChar '!' ['\n', '\n'] :=
              countChar_decomp_le '!' (show ['\n', '\n'] = u'' ++ t1 ++ [] by
                rw [List.append_nil]; exact hx2)
            have h0 : countChar '!' ['\n', '\n'] = 0 := by decide
            omega
          have hfree2 : hasSubstr ['\n', '\n'] t2 = false := by
            by_contra hx'
            rw [Bool.not_eq_false] at hx'
            rw [hasSubstr_mono (show t = t1 ++ t2 ++ [] by
              rw [List.append_nil]; exact ht) hx'] at hfree
            cases hfree
          have hc2 : countChar '!' t2 ≤ 1 :=
            ih hcount' t2 [] v'' (by rw [List.nil_append]; exact hy2) hfree2
          rw [ht]
          simp only [countChar, List.count_append] at hc1 hc2 ⊢
          omega
      · have hc1 : countChar '!' t1 ≤ 1 :=
          le_trans (countChar_decomp_le '!' (show p = u' ++ t1 ++ [] by
            rw [List.append_nil]; exact hx))
            (hcount p (List.mem_cons_self _ _))
        cases t2 with
        | nil => exact absurd rfl ht2
        | cons a t2' =>
          have hy' : ('\n' :: '\n' :: joinSep ['\n', '\n'] (q :: qs)) =
              a :: (t2' ++ v') := by simpa using hy
          injection hy' with ha htail
          cases t2' with
          | nil =>
            rw [ht]
            have h2 : countChar '!' [a] = 0 := by rw [← ha]; decide
            simp only [countChar, List.count_append] at hc1 h2 ⊢
            omega
          | cons b t2'' =>
            injection htail with hb _
            exfalso
            have hocc : hasSubstr ['\n', '\n'] t = true := by
              refine hasSubstr_mono (show t = t1 ++ (a :: b :: t2'') ++ [] by
                rw [List.append_nil]; exact ht) ?_
              exact (hasSubstr_iff_ex _ _).mpr ⟨[], t2'', by rw [← ha, ← hb]; rfl⟩
            rw [hocc] at hfree
            cases hfree

/-! ### Character-level facts for the capitalization pass -/

theorem upperAZ_toNat {c : Char} (h : isUpperAZ c = true) :
    65 ≤ c.toNat ∧ c.toNat ≤ 90 := by
  simpa [isUpperAZ, Bool.and_eq_true, decide_eq_true_eq] using h

theorem toNat_ofNat_small {n : Nat} (h : n < 55296) : (Char.ofNat n).toNat = n := by
  unfold Char.ofNat
  split
  · rfl
  · rename_i hv
    exact absurd (Or.inl (by omega)) hv

theorem upperAZ_pyUpperChar {c : Char} (h : isUpperAZ c = true) :
    pyUpperChar c = c := by
  obtain ⟨h1, h2⟩ := upperAZ_toNat h
  unfold pyUpperChar
  rw [if_neg, if_neg]
  · intro hc
    have := congrArg Char.toNat hc
    rw [show ('ё' : Char).toNat = 1105 from rfl] at this
    omega
  · simp only [isLowerAZ, isCyrLower, Bool.or_eq_true, Bool.and_eq_true,
      decide_eq_true_eq]
    omega

theorem upperAZ_ne_bang {c : Char} (h : isUpperAZ c = true) : c ≠ '!' := by
  obtain ⟨h1, _⟩ := upperAZ_toNat h
  intro hc
  have := congrArg Char.toNat hc
  rw [show ('!' : Char).toNat = 33 from rfl] at this
  omega

theorem upperAZ_ne_nl {c : Char} (h : isUpperAZ c = true) : c ≠ '\n' := by
  obtain ⟨h1, _⟩ := upperAZ_toNat h
  intro hc
  have := congrArg Char.toNat hc
  rw [show ('\n' : Char).toNat = 10 from rfl] at this
  omega

theorem upperAZ_pyLowerChar_toNat {c : Char} (h : isUpperAZ c = true) :
    (pyLowerChar c).toNat = c.toNat + 32 := by
  obtain ⟨h1, h2⟩ := upperAZ_toNat h
  unfold pyLowerChar
  rw [if_pos (by simp [h])]
  exact toNat_ofNat_small (by omega)

theorem upperAZ_pyLowerChar_ne_bang {c : Char} (h : isUpperAZ c = true) :
    pyLowerChar c ≠ '!' := by
  obtain ⟨h1, h2⟩ := upperAZ_toNat h
  intro hc
  have := congrArg Char.toNat hc
  rw [upperAZ_pyLowerChar_toNat h, show ('!' : Char).toNat = 33 from rfl] at this
  omega

theorem upperAZ_pyLowerChar_ne_nl {c : Char} (h : isUpperAZ c = true) :
    pyLowerChar c ≠ '\n' := by
  obtain ⟨h1, h2⟩ := upperAZ_toNat h
  intro hc
  have := congrArg Char.toNat hc
  rw [upperAZ_pyLowerChar_toNat h, show ('\n' : Char).toNat = 10 from rfl] at this
  omega

/-- Two strings agree on the positions of `!` and `\n`. -/
inductive BangNlEq : List Char → List Char → Prop
  | nil : BangNlEq [] []
  | cons {c d : Char} {cs ds : List Char} :
      (c = '!' ↔ d = '!') → (c = '\n' ↔ d = '\n') →
      BangNlEq cs ds → BangNlEq (c :: cs) (d :: ds)

theorem bangNlEq_refl : ∀ s : List Char, BangNlEq s s := by
  intro s
  induction s with
  | nil => exact .nil
  | cons c cs ih => exact .cons Iff.rfl Iff.rfl ih

theorem bangNlEq_append {a b c d : List Char}
    (h1 : BangNlEq a b) (h2 : BangNlEq c d) : BangNlEq (a ++ c) (b ++ d) := by
  induction h1 with
  | nil => exact h2
  | cons hb hn _ ih => exact .cons hb hn ih

theorem bangNlEq_count {s t : List Char} (h : BangNlEq s t) :
    countChar '!' s = countChar '!' t := by
  induction h with
  | nil => rfl
  | @cons c d cs ds hb hn _ ih =>
    simp only [countChar, List.count_cons, beq_iff_eq] at ih ⊢
    rw [ih, if_congr hb rfl rfl]

theorem bangNlEq_hasNN {s t : List Char} (h : BangNlEq s t) :
    hasSubstr ['\n', '\n'] s = hasSubstr ['\n', '\n'] t := by
  induction h with
  | nil => rfl
  | @cons c d cs ds hb hn htail ih =>
    rw [hasSubstr, hasSubstr, ih]
    congr 1
    have h1 : decide (('\n' : Char) = c) = decide (('\n' : Char) = d) :=
      decide_eq_decide.mpr
        ⟨fun x => (hn.mp x.symm).symm, fun x => (hn.mpr x.symm).symm⟩
    cases htail with
    | nil => simp only [isPrefixList, Bool.and_false]
    | @cons e f cs' ds' hb' hn' ht' =>
      have h2 : decide (('\n' : Char) = e) = decide (('\n' : Char) = f) :=
        decide_eq_decide.mpr
          ⟨fun x => (hn'.mp x.symm).symm, fun x => (hn'.mpr x.symm).symm⟩
      simp only [isPrefixList, Bool.and_true, h1, h2]

theorem bangNlEq_append_split {s u w : List Char} :
    BangNlEq s (u ++ w) →
      ∃ su sw, s = su ++ sw ∧ BangNlEq su u ∧ BangNlEq sw w := by
  induction u generalizing s with
  | nil =>
    intro h
    exact ⟨[], s, rfl, .nil, by simpa using h⟩
  | cons d u' ih =>
    intro h
    rw [List.cons_append] at h
    cases h with
    | @cons c _ cs _ hb hn ht =>
      obtain ⟨su, sw, heq, r1, r2⟩ := ih ht
      exact ⟨c :: su, sw, by rw [heq]; rfl, .cons hb hn r1, r2⟩

theorem bangNlEq_decomp {s t u x v : List Char} (h : BangNlEq s t)
    (ht : t = u ++ x ++ v) :
    ∃ x' u' v', s = u' ++ x' ++ v' ∧ BangNlEq x' x := by
  subst ht
  rw [List.append_assoc] at h
  obtain ⟨su, sw, heq, _, r2⟩ := bangNlEq_append_split h
  obtain ⟨sx, sv, heq2, rx, _⟩ := bangNlEq_append_split r2
  exact ⟨sx, su, sv, by rw [heq, heq2, List.append_assoc], rx⟩

theorem bangNlEq_lower {cs : List Char} (h : ∀ c ∈ cs, isUpperAZ c = true) :
    BangNlEq cs (pyLower cs) := by
  induction cs with
  | nil => exact .nil
  | cons c cs ih =>
    have hc := h c (List.mem_cons_self _ _)
    refine .cons ?_ ?_ (ih fun d hd => h d (List.mem_cons_of_mem _ hd))
    · exact iff_of_false (upperAZ_ne_bang hc) (upperAZ_pyLowerChar_ne_bang hc)
    · exact iff_of_false (upperAZ_ne_nl hc) (upperAZ_pyLowerChar_ne_nl hc)

theorem bangNlEq_capitalize {run : List Char}
    (h : ∀ c ∈ run, isUpperAZ c = true) : BangNlEq run (pyCapitalize run) := by
  cases run with
  | nil => exact .nil
  | cons c cs =>
    have hc := h c (List.mem_cons_self _ _)
    refine .cons ?_ ?_ (bangNlEq_lower fun d hd => h d (List.mem_cons_of_mem _ hd))
    · rw [upperAZ_pyUpperChar hc]
    · rw [upperAZ_pyUpperChar hc]

theorem bangNlEq_acrFlush {run : List Char} (b : Bool)
    (h : ∀ c ∈ run, isUpperAZ c = true) : BangNlEq run (acrFlush run b) := by
  unfold acrFlush
  split
  · exact bangNlEq_capitalize h
  · exact bangNlEq_refl run

/-- The capitalization scanner only changes letter case: input and output
agree on all `!` and `\n` positions. -/
theorem bangNlEq_acrGo :
    ∀ (cs : List Char) (prevW : Bool) (run : List Char),
      (∀ c ∈ run, isUpperAZ c = true) →
      BangNlEq (run ++ cs) (acrGo prevW run cs) := by
  intro cs
  induction cs with
  | nil =>
    intro prevW run hrun
    rw [acrGo, List.append_nil]
    exact bangNlEq_acrFlush true hrun
  | cons c cs ih =>
    intro prevW run hrun
    rw [acrGo]
    split
    · rename_i hc
      split
      · rename_i hemp
        rw [List.isEmpty_iff.mp hemp, List.nil_append]
        split
        · exact .cons Iff.rfl Iff.rfl (by simpa using ih true [] (by simp))
        · simpa using ih false [c] (by simpa using hc)
      · rw [show run ++ c :: cs = (run ++ [c]) ++ cs from by simp]
        refine ih prevW (run ++ [c]) ?_
        intro d hd
        rcases List.mem_append.mp hd with hd | hd
        · exact hrun d hd
        · rw [List.mem_singleton] at hd
          subst hd
          rename_i hc
          exact hc
    · split
      · rename_i hemp
        rw [List.isEmpty_iff.mp hemp, List.nil_append]
        exact .cons Iff.rfl Iff.rfl (by simpa using ih (isWordChar c) [] (by simp))
      · exact bangNlEq_append (bangNlEq_acrFlush _ hrun)
          (.cons Iff.rfl Iff.rfl (by simpa using ih (isWordChar c) [] (by simp)))

theorem bangNlEq_acronymSub (s : List Char) : BangNlEq s (acronymSub s) := by
  have := bangNlEq_acrGo s false [] (by simp)
  simpa using this

/-- **C4.** For every text, every blank-line-delimited paragraph of
`_reduce_enthusiasm`'s output contains at most one `!`. -/
theorem c4_enthusiasm_cap (t : List Char) :
    ∀ para ∈ splitSep ['\n', '\n'] (reduceEnthusiasm t),
      countChar '!' para ≤ 1 := by
  intro para hpara
  have hps : ∀ p ∈ (splitSep ['\n', '\n'] t).map fixPara, countChar '!' p ≤ 1 := by
    intro p hp
    obtain ⟨q, _, rfl⟩ := List.mem_map.mp hp
    exact fixPara_count q
  have hred : reduceEnthusiasm t =
      acronymSub (joinSep ['\n', '\n'] ((splitSep ['\n', '\n'] t).map fixPara)) := rfl
  rw [hred] at hpara
  obtain ⟨⟨u, v, hdec⟩, hfree⟩ :=
    splitSep_spec ['\n', '\n'] (by simp) _ para hpara
  obtain ⟨para', u', v', hdec', hbp⟩ :=
    bangNlEq_decomp (bangNlEq_acronymSub _) hdec
  have hfree' : hasSubstr ['\n', '\n'] para' = false := by
    rw [bangNlEq_hasNN hbp]
    exact hfree
  have := joinNN_region_count _ hps para' u' v' hdec' hfree'
  rw [bangNlEq_count hbp] at this
  exact this

theorem c4_enthusiasm_cap_witness :
    "Hi!. Wow".toList ∈ splitSep ['\n', '\n'] (reduceEnthusiasm "Hi!! Wow!".toList) ∧
    countChar '!' "Hi!. Wow".toList ≤ 1 :=
  ⟨by decide, c4_enthusiasm_cap "Hi!! Wow!".toList "Hi!. Wow".toList (by decide)⟩


end ResumeKit




